import Mathlib

/-!
Verification of the EOS-06 histogram generator (`src/eos06_histogram.py`).

The core of the program is `compute_histogram`, which filters non-finite
values out of a flat array, calls `np.histogram(clean_data, bins=bins)`,
and computes six summary statistics, and `write_histogram_to_text`, which
renders edges, counts and statistics into a text file.

Shallow embedding choices:
* Floating-point sample values are modelled as `FloatVal`: either a finite
  value, carried exactly as a rational, or one of the non-finite values
  NaN / +inf / -inf.  All arithmetic is exact over `ℚ`.
* `np.histogram` with an integer `bins` argument and no explicit range is
  modelled faithfully: the range is `[min, max]` of the data, widened to
  `[min - 0.5, max + 0.5]` when `min == max` (numpy `_get_outer_edges`);
  the edges are `bins + 1` equally spaced points over that range
  (`np.linspace`); each sample is assigned the bin index
  `min(⌊(x - lo) * bins / (hi - lo)⌋, bins - 1)`, which is exactly what
  numpy's uniform-bin fast path computes under exact arithmetic.
  `np.histogram` raises `ValueError` for `bins <= 0`; that error outcome is
  the `invalidBinCount` constructor.
* `np.std` (population, ddof=0) returns a square root, which is irrational
  in general; the statistics record carries its square `std2` (the exact
  population variance) instead.
* The report writer is modelled as the list of lines it writes, and the
  sequence of `f.write` calls is modelled operationally by `runWrites`,
  which appends chunks to the (truncated) file until a given failure point.
-/

/-- A double value as seen by `np.isfinite`: finite (exact rational), NaN,
or an infinity. -/
inductive FloatVal where
  | finite (q : ℚ)
  | nan
  | inf
  | negInf
deriving DecidableEq

/-- `np.isfinite`: true exactly on finite values. -/
def FloatVal.isFinite : FloatVal → Bool
  | .finite _ => true
  | _ => false

/-- `clean_data = data[np.isfinite(data)]` (line 43): the subsequence of
finite values, order preserved, carried as exact rationals. -/
def cleanData (data : List FloatVal) : List ℚ :=
  data.filterMap fun v => match v with
    | .finite q => some q
    | _ => none

/-- `np.min` on a nonempty list (0 as a junk value on `[]`, which the code
never reaches because of the emptiness check on line 45). -/
def listMin : List ℚ → ℚ
  | [] => 0
  | x :: xs => xs.foldl min x

/-- `np.max` on a nonempty list (junk value 0 on `[]`). -/
def listMax : List ℚ → ℚ
  | [] => 0
  | x :: xs => xs.foldl max x

/-- `np.mean`: sum divided by length (exact). -/
def meanQ (l : List ℚ) : ℚ := l.sum / (l.length : ℚ)

/-- The square of `np.std` with the default `ddof=0`: the population
variance, mean of squared deviations with divisor `len(l)`. -/
def popVar (l : List ℚ) : ℚ :=
  (l.map fun x => (x - meanQ l) ^ 2).sum / (l.length : ℚ)

/-- `np.median`: sort, take the middle element for odd length, the average
of the two middle elements for even length. -/
def medianQ (l : List ℚ) : ℚ :=
  let s := List.insertionSort (· ≤ ·) l
  if l.length % 2 = 1 then s.getD (l.length / 2) 0
  else (s.getD (l.length / 2 - 1) 0 + s.getD (l.length / 2) 0) / 2

/-- numpy `_get_outer_edges`: the histogram range is `[min, max]` of the
data, widened to `[min - 0.5, max + 0.5]` when the range is empty
(`min == max`). -/
def outerEdges (clean : List ℚ) : ℚ × ℚ :=
  let mn := listMin clean
  let mx := listMax clean
  if mn = mx then (mn - 1/2, mx + 1/2) else (mn, mx)

/-- The `j`-th bin edge: `np.linspace` places edge `j` at
`lo + j * (hi - lo) / bins`. -/
def edgeAt (lo hi : ℚ) (bins : ℕ) (j : ℕ) : ℚ :=
  lo + (j : ℚ) * (hi - lo) / (bins : ℚ)

/-- `np.linspace lo hi (bins+1)`: the `bins + 1` equally spaced bin edges
returned by `np.histogram`. -/
def binEdges (lo hi : ℚ) (bins : ℕ) : List ℚ :=
  (List.range (bins + 1)).map (edgeAt lo hi bins)

/-- The bin a sample lands in: numpy's uniform-bin fast path computes
`(x - lo) * bins / (hi - lo)`, truncates to an integer, and clamps index
`bins` down to `bins - 1` (so the last bin is closed on the right). -/
def binIndex (lo hi : ℚ) (bins : ℕ) (x : ℚ) : ℕ :=
  min (Int.toNat ⌊(x - lo) * (bins : ℚ) / (hi - lo)⌋) (bins - 1)

/-- The histogram counts: `counts[i]` is the number of samples with bin
index `i`. -/
def histCounts (lo hi : ℚ) (bins : ℕ) (clean : List ℚ) : List ℕ :=
  (List.range bins).map fun i =>
    clean.countP fun x => decide (binIndex lo hi bins x = i)

/-- The statistics dict built on lines 53-60.  `std2` is the square of the
`'std'` entry (see module docstring). -/
structure Stats where
  count : ℕ
  mean : ℚ
  std2 : ℚ
  min : ℚ
  max : ℚ
  median : ℚ
deriving DecidableEq

/-- Outcome of `compute_histogram`: the `(None, None, None)` early return
for no finite data (`EMPTY`), the `ValueError` raised by `np.histogram`
for a non-positive bin count (`invalidBinCount`), or the
`(bin_edges, hist_counts, stats)` triple. -/
inductive ComputeResult where
  | EMPTY
  | invalidBinCount
  | ok (bin_edges : List ℚ) (hist_counts : List ℕ) (stats : Stats)
deriving DecidableEq

/-- `compute_histogram(data, bins)` (lines 30-62): filter to finite values;
return `EMPTY` if none remain; otherwise `np.histogram` (which validates
`bins >= 1`) and the statistics. -/
def compute_histogram (data : List FloatVal) (bins : ℤ) : ComputeResult :=
  let clean := cleanData data
  if clean.length = 0 then .EMPTY
  else if bins ≤ 0 then .invalidBinCount
  else
    let b := bins.toNat
    let lo := (outerEdges clean).1
    let hi := (outerEdges clean).2
    .ok (binEdges lo hi b) (histCounts lo hi b clean)
      { count := clean.length
        mean := meanQ clean
        std2 := popVar clean
        min := listMin clean
        max := listMax clean
        median := medianQ clean }

/-- Whether the computation produced a histogram. -/
def ComputeResult.isOk : ComputeResult → Bool
  | .ok _ _ _ => true
  | _ => false

/-- The returned bin edges (`[]` when no histogram was produced). -/
def ComputeResult.edgesOf : ComputeResult → List ℚ
  | .ok e _ _ => e
  | _ => []

/-- The returned bin counts (`[]` when no histogram was produced). -/
def ComputeResult.countsOf : ComputeResult → List ℕ
  | .ok _ c _ => c
  | _ => []

/-- The returned statistics (an all-zero record when none was produced). -/
def ComputeResult.statsOf : ComputeResult → Stats
  | .ok _ _ s => s
  | _ => ⟨0, 0, 0, 0, 0, 0⟩

/-- The bin edges that the spec sentence "bins + 1 equally spaced points
from min to max of the Clean Sample Set" describes, taken at its word.
Used to compare against the edges the code actually produces. -/
def edgesSpecMinMax (clean : List ℚ) (bins : ℕ) : List ℚ :=
  binEdges (listMin clean) (listMax clean) bins

/-- The statistics values as received by `write_histogram_to_text`: the
writer gets already-computed floats (including the standard deviation
itself, not its square) and only formats them. -/
structure WStats where
  count : ℕ
  mean : ℚ
  std : ℚ
  min : ℚ
  max : ℚ
  median : ℚ
deriving DecidableEq

/-- Zero-padded 6-digit rendering of a natural number below 10^6. -/
def pad6 (m : ℕ) : String :=
  let s := toString m
  String.mk (List.replicate (6 - s.length) '0') ++ s

/-- Python `:.6f` fixed-point formatting of an exact rational: the value
rounded to 6 decimal places, rendered with exactly 6 fractional digits.
(Python rounds the underlying binary double to nearest; on exact decimal
ties the tie-breaking direction differs, which no claim depends on.) -/
def formatFixed6 (q : ℚ) : String :=
  let n : ℤ := round (q * 1000000)
  (if n < 0 then "-" else "") ++
    toString (n.natAbs / 1000000) ++ "." ++ pad6 (n.natAbs % 1000000)

/-- The data-section lines written by the loop on lines 97-100: one line
per bin, `bin_center, count, left_edge, right_edge`. -/
def dataLines (bin_edges : List ℚ) (hist_counts : List ℕ) : List String :=
  (List.range hist_counts.length).map fun i =>
    formatFixed6 ((bin_edges.getD i 0 + bin_edges.getD (i+1) 0) / 2) ++ ", " ++
      toString (hist_counts.getD i 0) ++ ", " ++
      formatFixed6 (bin_edges.getD i 0) ++ ", " ++
      formatFixed6 (bin_edges.getD (i+1) 0)

/-- The full document written by `write_histogram_to_text` (lines 76-100),
as the list of its lines (each `f.write` call writes exactly one line).
The timestamp is a parameter, as is the metadata, given as the key/value
pairs in the caller's iteration order. -/
def writeHistogramLines (bin_edges : List ℚ) (hist_counts : List ℕ) (stats : WStats)
    (var_name timestamp : String) (var_info : List (String × String)) : List String :=
  (["# Histogram for variable: " ++ var_name,
    "# Generated on: " ++ timestamp]
   ++ (if var_info.isEmpty then []
       else "# Variable info:" :: var_info.map fun kv => "#   " ++ kv.1 ++ ": " ++ kv.2)
   ++ ["#",
       "# Statistics:",
       "#   Count: " ++ toString stats.count,
       "#   Mean: " ++ formatFixed6 stats.mean,
       "#   Std Dev: " ++ formatFixed6 stats.std,
       "#   Min: " ++ formatFixed6 stats.min,
       "#   Max: " ++ formatFixed6 stats.max,
       "#   Median: " ++ formatFixed6 stats.median,
       "#",
       "# Format: bin_center, count, bin_left_edge, bin_right_edge",
       "#"])
  ++ dataLines bin_edges hist_counts

/-- Number of lines preceding the data section in the written document. -/
def headerLineCount (var_info : List (String × String)) : ℕ :=
  if var_info.isEmpty then 13 else 14 + var_info.length

/-- The successive payloads of the `f.write` calls: each line of the
document followed by a newline. -/
def writeChunks (bin_edges : List ℚ) (hist_counts : List ℕ) (stats : WStats)
    (var_name timestamp : String) (var_info : List (String × String)) : List String :=
  (writeHistogramLines bin_edges hist_counts stats var_name timestamp var_info).map
    fun line => line ++ "\n"

/-- Operational model of the sequence of `f.write` calls against a
destination opened with mode `'w'` (truncated to empty).  `k` is the
number of writes the environment lets succeed before failing (an I/O
failure such as a full disk).  Returns whether all writes succeeded and
the list of chunks present in the file afterwards; the destination's
content is their concatenation. -/
def runWrites : List String → ℕ → Bool × List String
  | [], _ => (true, [])
  | _ :: _, 0 => (false, [])
  | c :: cs, k+1 =>
    let r := runWrites cs k
    (r.1, c :: r.2)

/-! ### List helper lemmas -/

theorem getD_map_range {α : Type} (f : ℕ → α) (d : α) {i n : ℕ} (h : i < n) :
    ((List.range n).map f).getD i d = f i := by
  simp [List.getD_eq_getElem?_getD, List.getElem?_map, List.getElem?_range h]

theorem sum_map_range (g : ℕ → ℕ) : ∀ n : ℕ,
    ((List.range n).map g).sum = ∑ i in Finset.range n, g i
  | 0 => by simp
  | n + 1 => by
    rw [List.range_succ, List.map_append, List.sum_append, Finset.sum_range_succ,
      sum_map_range g n]
    simp

theorem countP_partition {α : Type} (l : List α) (f : α → ℕ) (n : ℕ)
    (h : ∀ x ∈ l, f x < n) :
    (∑ i in Finset.range n, l.countP fun x => decide (f x = i)) = l.length := by
  induction l with
  | nil => simp
  | cons a t ih =>
    have ha : f a < n := h a (List.mem_cons_self a t)
    have ht : ∀ x ∈ t, f x < n := fun x hx => h x (List.mem_cons_of_mem a hx)
    calc (∑ i in Finset.range n, (a :: t).countP fun x => decide (f x = i))
        = ∑ i in Finset.range n,
            ((t.countP fun x => decide (f x = i)) + if f a = i then 1 else 0) := by
          refine Finset.sum_congr rfl fun i _ => ?_
          rw [List.countP_cons]
          simp
      _ = (∑ i in Finset.range n, t.countP fun x => decide (f x = i)) +
            ∑ i in Finset.range n, if f a = i then 1 else 0 := Finset.sum_add_distrib
      _ = t.length + 1 := by
          rw [ih ht, Finset.sum_ite_eq]
          simp [Finset.mem_range.mpr ha]
      _ = (a :: t).length := by simp

/-! ### Minimum / maximum of a nonempty list (`np.min`, `np.max`) -/

theorem foldl_min_le_init (t : List ℚ) : ∀ x : ℚ, t.foldl min x ≤ x := by
  induction t with
  | nil => intro x; simp
  | cons a t ih =>
    intro x
    calc (a :: t).foldl min x = t.foldl min (min x a) := rfl
      _ ≤ min x a := ih _
      _ ≤ x := min_le_left x a

theorem foldl_min_le_mem (t : List ℚ) : ∀ (x a : ℚ), a ∈ t → t.foldl min x ≤ a := by
  induction t with
  | nil => intro x a ha; cases ha
  | cons b t ih =>
    intro x a ha
    rcases List.mem_cons.mp ha with h | h
    · subst h
      exact le_trans (foldl_min_le_init t (min x a)) (min_le_right x a)
    · exact ih (min x b) a h

theorem foldl_min_mem (t : List ℚ) : ∀ x : ℚ, t.foldl min x = x ∨ t.foldl min x ∈ t := by
  induction t with
  | nil => intro x; left; rfl
  | cons a t ih =>
    intro x
    have hfold : (a :: t).foldl min x = t.foldl min (min x a) := rfl
    rcases ih (min x a) with h | h
    · rcases le_total x a with hxa | hax
      · left
        rw [hfold, h, min_eq_left hxa]
      · right
        rw [hfold, h, min_eq_right hax]
        exact List.mem_cons_self a t
    · right
      rw [hfold]
      exact List.mem_cons_of_mem a h

theorem listMin_le (l : List ℚ) (a : ℚ) (ha : a ∈ l) : listMin l ≤ a := by
  cases l with
  | nil => cases ha
  | cons x t =>
    rcases List.mem_cons.mp ha with h | h
    · subst h; exact foldl_min_le_init t a
    · exact foldl_min_le_mem t x a h

theorem listMin_mem (l : List ℚ) (h : l ≠ []) : listMin l ∈ l := by
  cases l with
  | nil => exact absurd rfl h
  | cons x t =>
    rcases foldl_min_mem t x with h' | h'
    · rw [show listMin (x :: t) = t.foldl min x from rfl, h']
      exact List.mem_cons_self x t
    · exact List.mem_cons_of_mem x h'

theorem foldl_max_init_le (t : List ℚ) : ∀ x : ℚ, x ≤ t.foldl max x := by
  induction t with
  | nil => intro x; simp
  | cons a t ih =>
    intro x
    calc x ≤ max x a := le_max_left x a
      _ ≤ t.foldl max (max x a) := ih _
      _ = (a :: t).foldl max x := rfl

theorem foldl_max_mem_le (t : List ℚ) : ∀ (x a : ℚ), a ∈ t → a ≤ t.foldl max x := by
  induction t with
  | nil => intro x a ha; cases ha
  | cons b t ih =>
    intro x a ha
    rcases List.mem_cons.mp ha with h | h
    · subst h
      exact le_trans (le_max_right x a) (foldl_max_init_le t (max x a))
    · exact ih (max x b) a h

theorem foldl_max_mem (t : List ℚ) : ∀ x : ℚ, t.foldl max x = x ∨ t.foldl max x ∈ t := by
  induction t with
  | nil => intro x; left; rfl
  | cons a t ih =>
    intro x
    have hfold : (a :: t).foldl max x = t.foldl max (max x a) := rfl
    rcases ih (max x a) with h | h
    · rcases le_total a x with hax | hxa
      · left
        rw [hfold, h, max_eq_left hax]
      · right
        rw [hfold, h, max_eq_right hxa]
        exact List.mem_cons_self a t
    · right
      rw [hfold]
      exact List.mem_cons_of_mem a h

theorem le_listMax (l : List ℚ) (a : ℚ) (ha : a ∈ l) : a ≤ listMax l := by
  cases l with
  | nil => cases ha
  | cons x t =>
    rcases List.mem_cons.mp ha with h | h
    · subst h; exact foldl_max_init_le t a
    · exact foldl_max_mem_le t x a h

theorem listMax_mem (l : List ℚ) (h : l ≠ []) : listMax l ∈ l := by
  cases l with
  | nil => exact absurd rfl h
  | cons x t =>
    rcases foldl_max_mem t x with h' | h'
    · rw [show listMax (x :: t) = t.foldl max x from rfl, h']
      exact List.mem_cons_self x t
    · exact List.mem_cons_of_mem x h'

theorem listMin_le_listMax (l : List ℚ) (h : l ≠ []) : listMin l ≤ listMax l :=
  le_trans (listMin_le l (listMax l) (listMax_mem l h)) (le_refl _)

/-! ### The histogram range -/

theorem outerEdges_eq_deg (clean : List ℚ) (heq : listMin clean = listMax clean) :
    outerEdges clean = (listMin clean - 1/2, listMin clean + 1/2) := by
  simp [outerEdges, heq]

theorem outerEdges_eq_nondeg (clean : List ℚ) (hne : listMin clean ≠ listMax clean) :
    outerEdges clean = (listMin clean, listMax clean) := by
  simp [outerEdges, hne]

theorem outerEdges_lt (clean : List ℚ) (h : clean ≠ []) :
    (outerEdges clean).1 < (outerEdges clean).2 := by
  by_cases heq : listMin clean = listMax clean
  · rw [outerEdges_eq_deg clean heq]
    show listMin clean - 1/2 < listMin clean + 1/2
    linarith
  · rw [outerEdges_eq_nondeg clean heq]
    exact lt_of_le_of_ne (listMin_le_listMax clean h) heq

theorem mem_outerEdges_Icc (clean : List ℚ) (x : ℚ) (hx : x ∈ clean) :
    (outerEdges clean).1 ≤ x ∧ x ≤ (outerEdges clean).2 := by
  have h1 := listMin_le clean x hx
  have h2 := le_listMax clean x hx
  by_cases heq : listMin clean = listMax clean
  · rw [outerEdges_eq_deg clean heq]
    constructor
    · simp only
      linarith
    · simp only
      rw [heq]
      linarith
  · rw [outerEdges_eq_nondeg clean heq]
    exact ⟨h1, h2⟩

/-! ### Bin edge arithmetic -/

theorem edgeAt_le_iff (lo hi : ℚ) (b : ℕ) (hb : 0 < b) (hlt : lo < hi) (j : ℕ) (x : ℚ) :
    edgeAt lo hi b j ≤ x ↔ (j : ℚ) ≤ (x - lo) * (b : ℚ) / (hi - lo) := by
  have hb' : (0 : ℚ) < (b : ℚ) := by exact_mod_cast hb
  have hd : (0 : ℚ) < hi - lo := by linarith
  rw [le_div_iff₀ hd, edgeAt]
  constructor
  · intro h
    have h' : (j : ℚ) * (hi - lo) / (b : ℚ) ≤ x - lo := by linarith
    exact (div_le_iff₀ hb').mp h'
  · intro h
    have h' := (div_le_iff₀ hb').mpr h
    linarith

theorem lt_edgeAt_iff (lo hi : ℚ) (b : ℕ) (hb : 0 < b) (hlt : lo < hi) (j : ℕ) (x : ℚ) :
    x < edgeAt lo hi b j ↔ (x - lo) * (b : ℚ) / (hi - lo) < (j : ℚ) := by
  have hb' : (0 : ℚ) < (b : ℚ) := by exact_mod_cast hb
  have hd : (0 : ℚ) < hi - lo := by linarith
  rw [div_lt_iff₀ hd, edgeAt]
  constructor
  · intro h
    have h' : x - lo < (j : ℚ) * (hi - lo) / (b : ℚ) := by linarith
    exact (lt_div_iff₀ hb').mp h'
  · intro h
    have := (lt_div_iff₀ hb').mpr h
    linarith

theorem edgeAt_zero (lo hi : ℚ) (b : ℕ) : edgeAt lo hi b 0 = lo := by
  simp [edgeAt]

theorem edgeAt_last (lo hi : ℚ) (b : ℕ) (hb : 0 < b) : edgeAt lo hi b b = hi := by
  have hb' : (b : ℚ) ≠ 0 := by
    exact_mod_cast Nat.pos_iff_ne_zero.mp hb
  rw [edgeAt, mul_comm, mul_div_assoc, div_self hb', mul_one]
  ring

theorem edgeAt_lt_succ (lo hi : ℚ) (b : ℕ) (hb : 0 < b) (hlt : lo < hi) (j : ℕ) :
    edgeAt lo hi b j < edgeAt lo hi b (j + 1) := by
  have hb' : (0 : ℚ) < (b : ℚ) := by exact_mod_cast hb
  have hd : (0 : ℚ) < hi - lo := by linarith
  have hj : (j : ℚ) < ((j + 1 : ℕ) : ℚ) := by push_cast; linarith
  have : (j : ℚ) * (hi - lo) / (b : ℚ) < ((j + 1 : ℕ) : ℚ) * (hi - lo) / (b : ℚ) := by
    apply div_lt_div_of_pos_right ?_ hb'
    exact mul_lt_mul_of_pos_right hj hd
  rw [edgeAt, edgeAt]
  linarith

/-! ### Characterization of `binIndex` by intervals between edges -/

theorem binIndex_lt (lo hi : ℚ) (b : ℕ) (hb : 0 < b) (x : ℚ) : binIndex lo hi b x < b := by
  have : binIndex lo hi b x ≤ b - 1 := min_le_right _ _
  omega

theorem binIndex_eq_iff_of_lt (lo hi : ℚ) (b : ℕ) (hlt : lo < hi) (x : ℚ)
    (hx : lo ≤ x) (i : ℕ) (hib : i + 1 < b) :
    binIndex lo hi b x = i ↔
      edgeAt lo hi b i ≤ x ∧ x < edgeAt lo hi b (i + 1) := by
  have hb : 0 < b := by omega
  have hb' : (0 : ℚ) < (b : ℚ) := by exact_mod_cast hb
  have hd : (0 : ℚ) < hi - lo := by linarith
  have ht0 : (0 : ℚ) ≤ (x - lo) * (b : ℚ) / (hi - lo) := by
    apply div_nonneg _ (le_of_lt hd)
    apply mul_nonneg (by linarith) (le_of_lt hb')
  have hfl0 : 0 ≤ ⌊(x - lo) * (b : ℚ) / (hi - lo)⌋ := Int.floor_nonneg.mpr ht0
  constructor
  · intro h
    have hmin : min (Int.toNat ⌊(x - lo) * (b : ℚ) / (hi - lo)⌋) (b - 1) = i := h
    have hui : Int.toNat ⌊(x - lo) * (b : ℚ) / (hi - lo)⌋ = i := by
      rcases min_cases (Int.toNat ⌊(x - lo) * (b : ℚ) / (hi - lo)⌋) (b - 1) with
        ⟨he, _⟩ | ⟨he, hle⟩
      · omega
      · omega
    have hfl : ⌊(x - lo) * (b : ℚ) / (hi - lo)⌋ = (i : ℤ) := by omega
    have hiff := Int.floor_eq_iff.mp hfl
    push_cast at hiff
    constructor
    · rw [edgeAt_le_iff lo hi b hb hlt i x]
      exact hiff.1
    · rw [lt_edgeAt_iff lo hi b hb hlt (i + 1) x]
      push_cast
      exact hiff.2
  · rintro ⟨h1, h2⟩
    have ht1 : (i : ℚ) ≤ (x - lo) * (b : ℚ) / (hi - lo) :=
      (edgeAt_le_iff lo hi b hb hlt i x).mp h1
    have ht2 : (x - lo) * (b : ℚ) / (hi - lo) < (i : ℚ) + 1 := by
      have := (lt_edgeAt_iff lo hi b hb hlt (i + 1) x).mp h2
      push_cast at this
      linarith
    have hfl : ⌊(x - lo) * (b : ℚ) / (hi - lo)⌋ = (i : ℤ) := by
      apply Int.floor_eq_iff.mpr
      constructor
      · exact_mod_cast ht1
      · push_cast
        exact ht2
    unfold binIndex
    rw [hfl]
    rw [show ((i : ℤ).toNat) = i from Int.toNat_natCast i]
    exact min_eq_left (by omega)

theorem binIndex_last_iff (lo hi : ℚ) (b : ℕ) (hb : 0 < b) (hlt : lo < hi) (x : ℚ)
    (hx1 : lo ≤ x) (hx2 : x ≤ hi) :
    binIndex lo hi b x = b - 1 ↔
      edgeAt lo hi b (b - 1) ≤ x ∧ x ≤ edgeAt lo hi b b := by
  have hb' : (0 : ℚ) < (b : ℚ) := by exact_mod_cast hb
  have hd : (0 : ℚ) < hi - lo := by linarith
  have ht0 : (0 : ℚ) ≤ (x - lo) * (b : ℚ) / (hi - lo) := by
    apply div_nonneg _ (le_of_lt hd)
    apply mul_nonneg (by linarith) (le_of_lt hb')
  have hfl0 : 0 ≤ ⌊(x - lo) * (b : ℚ) / (hi - lo)⌋ := Int.floor_nonneg.mpr ht0
  have hxhi : x ≤ edgeAt lo hi b b := by rw [edgeAt_last lo hi b hb]; exact hx2
  constructor
  · intro h
    refine ⟨?_, hxhi⟩
    have hmin : min (Int.toNat ⌊(x - lo) * (b : ℚ) / (hi - lo)⌋) (b - 1) = b - 1 := h
    have hge : b - 1 ≤ Int.toNat ⌊(x - lo) * (b : ℚ) / (hi - lo)⌋ := by
      rcases min_cases (Int.toNat ⌊(x - lo) * (b : ℚ) / (hi - lo)⌋) (b - 1) with
        ⟨he, hle⟩ | ⟨he, hle⟩
      · omega
      · omega
    have hz : ((b - 1 : ℕ) : ℤ) ≤ ⌊(x - lo) * (b : ℚ) / (hi - lo)⌋ :=
      (Int.le_toNat hfl0).mp hge
    have hq : ((b - 1 : ℕ) : ℚ) ≤ (x - lo) * (b : ℚ) / (hi - lo) := by
      have := Int.le_floor.mp hz
      exact_mod_cast this
    exact (edgeAt_le_iff lo hi b hb hlt (b - 1) x).mpr hq
  · rintro ⟨h1, _⟩
    have hq : ((b - 1 : ℕ) : ℚ) ≤ (x - lo) * (b : ℚ) / (hi - lo) :=
      (edgeAt_le_iff lo hi b hb hlt (b - 1) x).mp h1
    have hz : ((b - 1 : ℕ) : ℤ) ≤ ⌊(x - lo) * (b : ℚ) / (hi - lo)⌋ :=
      Int.le_floor.mpr (by exact_mod_cast hq)
    have hge : b - 1 ≤ Int.toNat ⌊(x - lo) * (b : ℚ) / (hi - lo)⌋ :=
      (Int.le_toNat hfl0).mpr hz
    unfold binIndex
    exact min_eq_right hge

/-! ### Unfolding `compute_histogram` on its three paths -/

theorem compute_histogram_eq_empty (data : List FloatVal) (bins : ℤ)
    (h : cleanData data = []) :
    compute_histogram data bins = ComputeResult.EMPTY := by
  simp [compute_histogram, h]

theorem compute_histogram_eq_invalid (data : List FloatVal) (bins : ℤ)
    (h1 : cleanData data ≠ []) (h2 : bins ≤ 0) :
    compute_histogram data bins = ComputeResult.invalidBinCount := by
  have h1' : ¬ (cleanData data).length = 0 := by
    simpa [List.length_eq_zero] using h1
  simp [compute_histogram, h1', h2]

theorem compute_histogram_eq_ok (data : List FloatVal) (bins : ℤ)
    (h1 : cleanData data ≠ []) (h2 : 1 ≤ bins) :
    compute_histogram data bins = ComputeResult.ok
      (binEdges (outerEdges (cleanData data)).1 (outerEdges (cleanData data)).2 bins.toNat)
      (histCounts (outerEdges (cleanData data)).1 (outerEdges (cleanData data)).2
        bins.toNat (cleanData data))
      { count := (cleanData data).length
        mean := meanQ (cleanData data)
        std2 := popVar (cleanData data)
        min := listMin (cleanData data)
        max := listMax (cleanData data)
        median := medianQ (cleanData data) } := by
  have h1' : ¬ (cleanData data).length = 0 := by
    simpa [List.length_eq_zero] using h1
  have h2' : ¬ bins ≤ 0 := by omega
  simp [compute_histogram, h1', h2']

/-! ### Sum of the histogram counts -/

theorem sum_histCounts (lo hi : ℚ) (b : ℕ) (hb : 0 < b) (clean : List ℚ) :
    (histCounts lo hi b clean).sum = clean.length := by
  unfold histCounts
  rw [sum_map_range]
  exact countP_partition clean _ b fun x _ => binIndex_lt lo hi b hb x

/-! ### Elements of `binEdges` and `histCounts` by index -/

theorem binEdges_getD (lo hi : ℚ) (b : ℕ) {j : ℕ} (hj : j < b + 1) :
    (binEdges lo hi b).getD j 0 = edgeAt lo hi b j := by
  unfold binEdges
  exact getD_map_range (edgeAt lo hi b) 0 hj

theorem binEdges_length (lo hi : ℚ) (b : ℕ) : (binEdges lo hi b).length = b + 1 := by
  simp [binEdges]

theorem histCounts_length (lo hi : ℚ) (b : ℕ) (clean : List ℚ) :
    (histCounts lo hi b clean).length = b := by
  simp [histCounts]

theorem histCounts_getD (lo hi : ℚ) (b : ℕ) (clean : List ℚ) {i : ℕ} (hi2 : i < b) :
    (histCounts lo hi b clean).getD i 0 =
      clean.countP fun x => decide (binIndex lo hi b x = i) := by
  unfold histCounts
  exact getD_map_range _ 0 hi2

/-! ### Strict monotonicity of the edges -/

theorem binEdges_chain_lt (lo hi : ℚ) (b : ℕ) (hb : 0 < b) (hlt : lo < hi) :
    (binEdges lo hi b).Chain' (· < ·) := by
  unfold binEdges
  rw [List.chain'_map]
  rw [show b + 1 = Nat.succ b from rfl, List.chain'_range_succ]
  intro m _
  exact edgeAt_lt_succ lo hi b hb hlt m

/-! ### The write sequence model -/

theorem runWrites_eq (chunks : List String) : ∀ k : ℕ,
    runWrites chunks k = (decide (chunks.length ≤ k), chunks.take k) := by
  induction chunks with
  | nil => intro k; simp [runWrites]
  | cons c cs ih =>
    intro k
    cases k with
    | zero => simp [runWrites]
    | succ k =>
      simp only [runWrites, ih k, List.take_succ_cons, List.length_cons]
      have hd : decide (cs.length ≤ k) = decide (cs.length + 1 ≤ k + 1) :=
        decide_eq_decide.mpr (by omega)
      rw [hd]

/-! ### Claim theorems -/

/-- C1: for every input array with at least one finite value and every
`bins ≥ 1`, `compute_histogram` produces a histogram whose counts sum to
the number of finite values in the input, which is also `stats['count']`. -/
theorem counts_sum_eq_finite_count (data : List FloatVal) (bins : ℤ)
    (h1 : cleanData data ≠ []) (h2 : 1 ≤ bins) :
    (compute_histogram data bins).isOk = true ∧
    (compute_histogram data bins).countsOf.sum = (cleanData data).length ∧
    (compute_histogram data bins).countsOf.sum =
      (compute_histogram data bins).statsOf.count := by
  rw [compute_histogram_eq_ok data bins h1 h2]
  simp only [ComputeResult.isOk, ComputeResult.countsOf, ComputeResult.statsOf]
  have hb : 0 < bins.toNat := by omega
  exact ⟨trivial, sum_histCounts _ _ _ hb _, sum_histCounts _ _ _ hb _⟩

/-- C1 witness: the input `[1.0, 2.0, NaN]` with `bins = 2` has two finite
values, and the returned counts sum to 2. -/
theorem counts_sum_eq_finite_count_witness :
    cleanData [FloatVal.finite 1, FloatVal.finite 2, FloatVal.nan] ≠ [] ∧
    (1 : ℤ) ≤ 2 ∧
    ((compute_histogram [FloatVal.finite 1, FloatVal.finite 2, FloatVal.nan] 2).isOk = true ∧
     (compute_histogram [FloatVal.finite 1, FloatVal.finite 2, FloatVal.nan] 2).countsOf.sum =
       (cleanData [FloatVal.finite 1, FloatVal.finite 2, FloatVal.nan]).length ∧
     (compute_histogram [FloatVal.finite 1, FloatVal.finite 2, FloatVal.nan] 2).countsOf.sum =
       (compute_histogram [FloatVal.finite 1, FloatVal.finite 2, FloatVal.nan] 2).statsOf.count) :=
  ⟨by decide, by decide, counts_sum_eq_finite_count _ 2 (by decide) (by decide)⟩

/-- C5: an input array all of whose values are NaN or infinite yields the
`EMPTY` outcome (the `(None, None, None)` early return), for any bin
count. -/
theorem all_nonfinite_returns_empty (data : List FloatVal) (bins : ℤ)
    (h : ∀ v ∈ data, v.isFinite = false) :
    compute_histogram data bins = ComputeResult.EMPTY := by
  apply compute_histogram_eq_empty
  unfold cleanData
  rw [List.filterMap_eq_nil_iff]
  intro v hv
  cases v with
  | finite q => simpa [FloatVal.isFinite] using h _ hv
  | nan => rfl
  | inf => rfl
  | negInf => rfl

/-- C5 witness: `[NaN, inf, -inf]` with the default 50 bins returns
`EMPTY`. -/
theorem all_nonfinite_returns_empty_witness :
    (∀ v ∈ [FloatVal.nan, FloatVal.inf, FloatVal.negInf], v.isFinite = false) ∧
    compute_histogram [FloatVal.nan, FloatVal.inf, FloatVal.negInf] 50 =
      ComputeResult.EMPTY :=
  ⟨by decide, all_nonfinite_returns_empty _ 50 (by decide)⟩

/-- C6 counterexample: with an all-NaN input, `bins = 0` and `bins = -1` do
NOT signal `InvalidBinCount`; the emptiness check on line 45 runs first and
returns the `EMPTY` outcome. -/
theorem invalid_bins_counterexample :
    compute_histogram [FloatVal.nan] 0 = ComputeResult.EMPTY ∧
    compute_histogram [FloatVal.nan] 0 ≠ ComputeResult.invalidBinCount ∧
    compute_histogram [FloatVal.nan] (-1) = ComputeResult.EMPTY ∧
    compute_histogram [FloatVal.nan] (-1) ≠ ComputeResult.invalidBinCount := by
  decide

/-- C6 (amended): for every input array with at least one finite value,
any bin count `≤ 0` (in particular 0 and -1) signals `InvalidBinCount`
rather than returning a histogram. -/
theorem invalid_bins_signaled_with_finite_data (data : List FloatVal) (bins : ℤ)
    (h1 : cleanData data ≠ []) (h2 : bins ≤ 0) :
    compute_histogram data bins = ComputeResult.invalidBinCount :=
  compute_histogram_eq_invalid data bins h1 h2

/-- C6 witness: `[1.0]` with `bins = 0` and with `bins = -1` signals
`InvalidBinCount`. -/
theorem invalid_bins_signaled_with_finite_data_witness :
    compute_histogram [FloatVal.finite 1] 0 = ComputeResult.invalidBinCount ∧
    compute_histogram [FloatVal.finite 1] (-1) = ComputeResult.invalidBinCount :=
  ⟨invalid_bins_signaled_with_finite_data _ 0 (by decide) (by decide),
   invalid_bins_signaled_with_finite_data _ (-1) (by decide) (by decide)⟩

/-- C10: the `EMPTY` outcome takes precedence over `InvalidBinCount`: when
the Clean Sample Set is empty, `compute_histogram` returns `EMPTY` for
every `bins` value (including `bins ≤ 0`) and never `InvalidBinCount`. -/
theorem empty_precedes_invalid_bins (data : List FloatVal) (bins : ℤ)
    (h : cleanData data = []) :
    compute_histogram data bins = ComputeResult.EMPTY ∧
    compute_histogram data bins ≠ ComputeResult.invalidBinCount := by
  have he := compute_histogram_eq_empty data bins h
  refine ⟨he, ?_⟩
  rw [he]
  exact fun hc => ComputeResult.noConfusion hc

/-- C10 witness: `[NaN]` with `bins = -1` returns `EMPTY`, not
`InvalidBinCount`. -/
theorem empty_precedes_invalid_bins_witness :
    compute_histogram [FloatVal.nan] (-1) = ComputeResult.EMPTY ∧
    compute_histogram [FloatVal.nan] (-1) ≠ ComputeResult.invalidBinCount :=
  empty_precedes_invalid_bins [FloatVal.nan] (-1) (by decide)

/-- Concrete evaluation of the single-valued example `[5.0, 5.0, 5.0]`,
`bins = 3`, shared by the claims about the degenerate (zero-width) range. -/
theorem ex5_clean :
    cleanData [FloatVal.finite 5, FloatVal.finite 5, FloatVal.finite 5] = [5, 5, 5] := rfl

/-- The full result on `[5.0, 5.0, 5.0]` with `bins = 3`: numpy widens the
zero-width range to `[4.5, 5.5]` and the middle bin receives all three
samples. -/
theorem ex5_result :
    compute_histogram [FloatVal.finite 5, FloatVal.finite 5, FloatVal.finite 5] 3 =
      ComputeResult.ok [9/2, 29/6, 31/6, 11/2] [0, 3, 0]
        { count := 3, mean := 5, std2 := 0, min := 5, max := 5, median := 5 } := by
  have h1 : cleanData [FloatVal.finite 5, FloatVal.finite 5, FloatVal.finite 5] ≠ [] := by
    rw [ex5_clean]
    simp
  rw [compute_histogram_eq_ok _ _ h1 (by norm_num), ex5_clean]
  have ho : outerEdges [5, 5, 5] = (9/2, 11/2) := by
    norm_num [outerEdges, listMin, listMax]
  rw [ho]
  norm_num [binEdges, edgeAt, List.range_succ, histCounts, List.countP_cons, binIndex,
    listMin, listMax, meanQ, popVar, medianQ, List.insertionSort, List.orderedInsert,
    show Int.toNat 3 = 3 from rfl]

/-- C7 counterexample: on `[5.0, 5.0, 5.0]` with `bins = 3` the returned
edges do not collapse toward 5.0: numpy widens the zero-width range to
`[4.5, 5.5]`, so the first edge is 4.5, not 5. -/
theorem single_value_collapse_counterexample :
    compute_histogram [FloatVal.finite 5, FloatVal.finite 5, FloatVal.finite 5] 3 =
      ComputeResult.ok [9/2, 29/6, 31/6, 11/2] [0, 3, 0]
        { count := 3, mean := 5, std2 := 0, min := 5, max := 5, median := 5 } ∧
    (compute_histogram [FloatVal.finite 5, FloatVal.finite 5, FloatVal.finite 5]
        3).edgesOf.getD 0 0 = 9/2 ∧
    ((9 : ℚ)/2 ≠ 5) ∧
    listMin (cleanData [FloatVal.finite 5, FloatVal.finite 5, FloatVal.finite 5]) = 5 := by
  refine ⟨ex5_result, ?_, by norm_num, ?_⟩
  · rw [ex5_result]
    rfl
  · rw [ex5_clean]
    rfl

/-- C7 (amended): on `[5.0, 5.0, 5.0]` with `bins = 3` the edges are the 4
equally spaced points over the widened range `[5 - 0.5, 5 + 0.5]`, and the
counts are `[0, 3, 0]`, summing to 3. -/
theorem single_value_histogram_widened :
    compute_histogram [FloatVal.finite 5, FloatVal.finite 5, FloatVal.finite 5] 3 =
      ComputeResult.ok (binEdges (9/2) (11/2) 3) [0, 3, 0]
        { count := 3, mean := 5, std2 := 0, min := 5, max := 5, median := 5 } ∧
    binEdges (9/2) (11/2) 3 = [9/2, 29/6, 31/6, 11/2] ∧
    ([0, 3, 0] : List ℕ).sum = 3 := by
  have he : binEdges (9/2) (11/2) 3 = [9/2, 29/6, 31/6, 11/2] := by
    norm_num [binEdges, edgeAt, List.range_succ]
  exact ⟨by rw [ex5_result, he], he, rfl⟩

/-- C2 counterexample: on `[5.0, 5.0, 5.0]` with `bins = 3` the returned
edges are not "equally spaced points from min to max of the Clean Sample
Set" (which would all equal 5): they span the widened range `[4.5, 5.5]`. -/
theorem edges_from_min_max_counterexample :
    edgesSpecMinMax (cleanData [FloatVal.finite 5, FloatVal.finite 5, FloatVal.finite 5]) 3 =
      [5, 5, 5, 5] ∧
    (compute_histogram [FloatVal.finite 5, FloatVal.finite 5, FloatVal.finite 5] 3).edgesOf =
      [9/2, 29/6, 31/6, 11/2] ∧
    ([9/2, 29/6, 31/6, 11/2] : List ℚ) ≠ [5, 5, 5, 5] := by
  refine ⟨?_, ?_, by norm_num⟩
  · rw [ex5_clean]
    norm_num [edgesSpecMinMax, listMin, listMax, binEdges, edgeAt, List.range_succ]
  · rw [ex5_result]
    rfl

/-- C2 (amended): for every input with a nonempty Clean Sample Set and
`bins ≥ 1`, the edges have length `bins + 1` and the counts length `bins`;
the edges are strictly increasing and span `[lo, hi]`, where
`[lo, hi] = [min, max]` of the Clean Sample Set whenever `min < max`
(there the claim's "equally spaced from min to max" holds verbatim), and
`[min - 0.5, max + 0.5]` in the degenerate case `min = max`. -/
theorem edges_counts_shape (data : List FloatVal) (bins : ℤ)
    (h1 : cleanData data ≠ []) (h2 : 1 ≤ bins) :
    (compute_histogram data bins).edgesOf.length = bins.toNat + 1 ∧
    (compute_histogram data bins).countsOf.length = bins.toNat ∧
    (compute_histogram data bins).edgesOf.Chain' (· < ·) ∧
    (compute_histogram data bins).edgesOf.getD 0 0 = (outerEdges (cleanData data)).1 ∧
    (compute_histogram data bins).edgesOf.getD bins.toNat 0 =
      (outerEdges (cleanData data)).2 ∧
    (listMin (cleanData data) ≠ listMax (cleanData data) →
      (compute_histogram data bins).edgesOf = edgesSpecMinMax (cleanData data) bins.toNat) ∧
    (listMin (cleanData data) = listMax (cleanData data) →
      outerEdges (cleanData data) =
        (listMin (cleanData data) - 1/2, listMin (cleanData data) + 1/2)) := by
  rw [compute_histogram_eq_ok data bins h1 h2]
  simp only [ComputeResult.edgesOf, ComputeResult.countsOf]
  have hb : 0 < bins.toNat := by omega
  have hlt := outerEdges_lt (cleanData data) h1
  refine ⟨binEdges_length _ _ _, histCounts_length _ _ _ _,
    binEdges_chain_lt _ _ _ hb hlt, ?_, ?_, ?_, ?_⟩
  · rw [binEdges_getD _ _ _ (by omega)]
    exact edgeAt_zero _ _ _
  · rw [binEdges_getD _ _ _ (by omega)]
    exact edgeAt_last _ _ _ hb
  · intro hne
    rw [outerEdges_eq_nondeg _ hne]
    rfl
  · intro heq
    exact outerEdges_eq_deg _ heq

/-- C2 witness at `[1.0, 2.0]`, `bins = 2`. -/
theorem edges_counts_shape_witness :
    cleanData [FloatVal.finite 1, FloatVal.finite 2] ≠ [] ∧
    (1 : ℤ) ≤ 2 ∧
    ((compute_histogram [FloatVal.finite 1, FloatVal.finite 2] 2).edgesOf.length =
        (2 : ℤ).toNat + 1 ∧
     (compute_histogram [FloatVal.finite 1, FloatVal.finite 2] 2).countsOf.length =
        (2 : ℤ).toNat ∧
     (compute_histogram [FloatVal.finite 1, FloatVal.finite 2] 2).edgesOf.Chain' (· < ·) ∧
     (compute_histogram [FloatVal.finite 1, FloatVal.finite 2] 2).edgesOf.getD 0 0 =
        (outerEdges (cleanData [FloatVal.finite 1, FloatVal.finite 2])).1 ∧
     (compute_histogram [FloatVal.finite 1, FloatVal.finite 2] 2).edgesOf.getD (2 : ℤ).toNat 0 =
        (outerEdges (cleanData [FloatVal.finite 1, FloatVal.finite 2])).2 ∧
     (listMin (cleanData [FloatVal.finite 1, FloatVal.finite 2]) ≠
        listMax (cleanData [FloatVal.finite 1, FloatVal.finite 2]) →
       (compute_histogram [FloatVal.finite 1, FloatVal.finite 2] 2).edgesOf =
         edgesSpecMinMax (cleanData [FloatVal.finite 1, FloatVal.finite 2]) (2 : ℤ).toNat) ∧
     (listMin (cleanData [FloatVal.finite 1, FloatVal.finite 2]) =
        listMax (cleanData [FloatVal.finite 1, FloatVal.finite 2]) →
       outerEdges (cleanData [FloatVal.finite 1, FloatVal.finite 2]) =
         (listMin (cleanData [FloatVal.finite 1, FloatVal.finite 2]) - 1/2,
          listMin (cleanData [FloatVal.finite 1, FloatVal.finite 2]) + 1/2))) :=
  ⟨by decide, by norm_num, edges_counts_shape [FloatVal.finite 1, FloatVal.finite 2] 2
    (by decide) (by norm_num)⟩

/-- C3: for every input with a nonempty Clean Sample Set and `bins ≥ 1`,
`counts[i]` is the number of Clean Sample Set elements in the half-open
interval `[edges[i], edges[i+1])` for `i < bins - 1`, and the last bin
`[edges[bins-1], edges[bins]]` is closed on both ends; every finite value
lands in exactly one bin (their total is the Clean Sample Set size, proved
with C1). -/
theorem counts_are_interval_counts (data : List FloatVal) (bins : ℤ)
    (h1 : cleanData data ≠ []) (h2 : 1 ≤ bins) :
    (∀ i, i + 1 < bins.toNat →
      (compute_histogram data bins).countsOf.getD i 0 =
        (cleanData data).countP fun x =>
          decide ((compute_histogram data bins).edgesOf.getD i 0 ≤ x ∧
                  x < (compute_histogram data bins).edgesOf.getD (i + 1) 0)) ∧
    ((compute_histogram data bins).countsOf.getD (bins.toNat - 1) 0 =
      (cleanData data).countP fun x =>
        decide ((compute_histogram data bins).edgesOf.getD (bins.toNat - 1) 0 ≤ x ∧
                x ≤ (compute_histogram data bins).edgesOf.getD bins.toNat 0)) := by
  rw [compute_histogram_eq_ok data bins h1 h2]
  simp only [ComputeResult.countsOf, ComputeResult.edgesOf]
  have hb : 0 < bins.toNat := by omega
  have hlt := outerEdges_lt (cleanData data) h1
  constructor
  · intro i hib
    rw [histCounts_getD _ _ _ _ (by omega)]
    have he1 := binEdges_getD (outerEdges (cleanData data)).1
      (outerEdges (cleanData data)).2 bins.toNat (show i < bins.toNat + 1 by omega)
    have he2 := binEdges_getD (outerEdges (cleanData data)).1
      (outerEdges (cleanData data)).2 bins.toNat (show i + 1 < bins.toNat + 1 by omega)
    simp only [he1, he2]
    apply List.countP_congr
    intro x hx
    simp only [decide_eq_true_eq]
    have hxr := mem_outerEdges_Icc (cleanData data) x hx
    exact binIndex_eq_iff_of_lt _ _ bins.toNat hlt x hxr.1 i hib
  · rw [histCounts_getD _ _ _ _ (by omega)]
    have he1 := binEdges_getD (outerEdges (cleanData data)).1
      (outerEdges (cleanData data)).2 bins.toNat
      (show bins.toNat - 1 < bins.toNat + 1 by omega)
    have he2 := binEdges_getD (outerEdges (cleanData data)).1
      (outerEdges (cleanData data)).2 bins.toNat (show bins.toNat < bins.toNat + 1 by omega)
    simp only [he1, he2]
    apply List.countP_congr
    intro x hx
    simp only [decide_eq_true_eq]
    have hxr := mem_outerEdges_Icc (cleanData data) x hx
    exact binIndex_last_iff _ _ bins.toNat hb hlt x hxr.1 hxr.2

/-- C3 witness at `[1.0, 2.0, 3.0, 4.0]`, `bins = 2`: bin 0 counts the
values in `[1, 5/2)` and the last bin those in `[5/2, 4]`. -/
theorem counts_are_interval_counts_witness :
    cleanData [FloatVal.finite 1, FloatVal.finite 2, FloatVal.finite 3, FloatVal.finite 4]
      ≠ [] ∧
    (1 : ℤ) ≤ 2 ∧
    ((∀ i, i + 1 < (2 : ℤ).toNat →
      (compute_histogram
        [FloatVal.finite 1, FloatVal.finite 2, FloatVal.finite 3, FloatVal.finite 4]
        2).countsOf.getD i 0 =
        (cleanData
          [FloatVal.finite 1, FloatVal.finite 2, FloatVal.finite 3, FloatVal.finite 4]).countP
          fun x =>
          decide ((compute_histogram
              [FloatVal.finite 1, FloatVal.finite 2, FloatVal.finite 3, FloatVal.finite 4]
              2).edgesOf.getD i 0 ≤ x ∧
            x < (compute_histogram
              [FloatVal.finite 1, FloatVal.finite 2, FloatVal.finite 3, FloatVal.finite 4]
              2).edgesOf.getD (i + 1) 0)) ∧
    ((compute_histogram
        [FloatVal.finite 1, FloatVal.finite 2, FloatVal.finite 3, FloatVal.finite 4]
        2).countsOf.getD ((2 : ℤ).toNat - 1) 0 =
      (cleanData
        [FloatVal.finite 1, FloatVal.finite 2, FloatVal.finite 3, FloatVal.finite 4]).countP
        fun x =>
        decide ((compute_histogram
            [FloatVal.finite 1, FloatVal.finite 2, FloatVal.finite 3, FloatVal.finite 4]
            2).edgesOf.getD ((2 : ℤ).toNat - 1) 0 ≤ x ∧
          x ≤ (compute_histogram
            [FloatVal.finite 1, FloatVal.finite 2, FloatVal.finite 3, FloatVal.finite 4]
            2).edgesOf.getD (2 : ℤ).toNat 0))) :=
  ⟨by decide, by norm_num,
   counts_are_interval_counts
     [FloatVal.finite 1, FloatVal.finite 2, FloatVal.finite 3, FloatVal.finite 4] 2
     (by decide) (by norm_num)⟩

/-- C4: for every input with a nonempty Clean Sample Set (and `bins ≥ 1`
so a result is produced), the statistics record satisfies: count is the
Clean Sample Set size; mean is the arithmetic mean; the standard deviation
is the population one — its square times count equals the sum of squared
deviations (divisor `count`, not `count - 1`); min and max are attained
lower/upper bounds; the median is the middle element of a sorted
rearrangement, or the average of the two middle elements for even count. -/
theorem stats_formulas (data : List FloatVal) (bins : ℤ)
    (h1 : cleanData data ≠ []) (h2 : 1 ≤ bins) :
    (compute_histogram data bins).statsOf.count = (cleanData data).length ∧
    (compute_histogram data bins).statsOf.mean =
      (cleanData data).sum / ((cleanData data).length : ℚ) ∧
    (compute_histogram data bins).statsOf.std2 * ((cleanData data).length : ℚ) =
      ((cleanData data).map
        fun x => (x - (compute_histogram data bins).statsOf.mean) ^ 2).sum ∧
    ((compute_histogram data bins).statsOf.min ∈ cleanData data ∧
      ∀ x ∈ cleanData data, (compute_histogram data bins).statsOf.min ≤ x) ∧
    ((compute_histogram data bins).statsOf.max ∈ cleanData data ∧
      ∀ x ∈ cleanData data, x ≤ (compute_histogram data bins).statsOf.max) ∧
    (List.insertionSort (· ≤ ·) (cleanData data)).Sorted (· ≤ ·) ∧
    List.Perm (List.insertionSort (· ≤ ·) (cleanData data)) (cleanData data) ∧
    (compute_histogram data bins).statsOf.median =
      (if (cleanData data).length % 2 = 1
       then (List.insertionSort (· ≤ ·) (cleanData data)).getD ((cleanData data).length / 2) 0
       else ((List.insertionSort (· ≤ ·) (cleanData data)).getD
               ((cleanData data).length / 2 - 1) 0 +
             (List.insertionSort (· ≤ ·) (cleanData data)).getD
               ((cleanData data).length / 2) 0) / 2) := by
  rw [compute_histogram_eq_ok data bins h1 h2]
  simp only [ComputeResult.statsOf]
  have hlen : ((cleanData data).length : ℚ) ≠ 0 := by
    have : (cleanData data).length ≠ 0 := by
      simpa [List.length_eq_zero] using h1
    exact_mod_cast this
  refine ⟨by trivial, by trivial, ?_, ⟨listMin_mem _ h1, fun x hx => listMin_le _ x hx⟩,
    ⟨listMax_mem _ h1, fun x hx => le_listMax _ x hx⟩,
    List.sorted_insertionSort _ _, List.perm_insertionSort _ _, by trivial⟩
  show popVar (cleanData data) * ((cleanData data).length : ℚ) = _
  rw [popVar]
  exact div_mul_cancel₀ _ hlen

/-- C4 witness at `[1.0, 2.0, NaN]`, `bins = 2`: count 2, mean 3/2,
population variance 1/4, min 1, max 2, median 3/2. -/
theorem stats_formulas_witness :
    cleanData [FloatVal.finite 1, FloatVal.finite 2, FloatVal.nan] ≠ [] ∧
    (1 : ℤ) ≤ 2 ∧
    ((compute_histogram [FloatVal.finite 1, FloatVal.finite 2, FloatVal.nan] 2).statsOf.count =
       (cleanData [FloatVal.finite 1, FloatVal.finite 2, FloatVal.nan]).length ∧
     (compute_histogram [FloatVal.finite 1, FloatVal.finite 2, FloatVal.nan] 2).statsOf.mean =
       (cleanData [FloatVal.finite 1, FloatVal.finite 2, FloatVal.nan]).sum /
         ((cleanData [FloatVal.finite 1, FloatVal.finite 2, FloatVal.nan]).length : ℚ) ∧
     (compute_histogram [FloatVal.finite 1, FloatVal.finite 2, FloatVal.nan] 2).statsOf.std2 *
         ((cleanData [FloatVal.finite 1, FloatVal.finite 2, FloatVal.nan]).length : ℚ) =
       ((cleanData [FloatVal.finite 1, FloatVal.finite 2, FloatVal.nan]).map
         fun x => (x - (compute_histogram [FloatVal.finite 1, FloatVal.finite 2, FloatVal.nan]
           2).statsOf.mean) ^ 2).sum ∧
     ((compute_histogram [FloatVal.finite 1, FloatVal.finite 2, FloatVal.nan] 2).statsOf.min ∈
         cleanData [FloatVal.finite 1, FloatVal.finite 2, FloatVal.nan] ∧
       ∀ x ∈ cleanData [FloatVal.finite 1, FloatVal.finite 2, FloatVal.nan],
         (compute_histogram [FloatVal.finite 1, FloatVal.finite 2, FloatVal.nan]
           2).statsOf.min ≤ x) ∧
     ((compute_histogram [FloatVal.finite 1, FloatVal.finite 2, FloatVal.nan] 2).statsOf.max ∈
         cleanData [FloatVal.finite 1, FloatVal.finite 2, FloatVal.nan] ∧
       ∀ x ∈ cleanData [FloatVal.finite 1, FloatVal.finite 2, FloatVal.nan],
         x ≤ (compute_histogram [FloatVal.finite 1, FloatVal.finite 2, FloatVal.nan]
           2).statsOf.max) ∧
     (List.insertionSort (· ≤ ·)
       (cleanData [FloatVal.finite 1, FloatVal.finite 2, FloatVal.nan])).Sorted (· ≤ ·) ∧
     List.Perm
       (List.insertionSort (· ≤ ·)
         (cleanData [FloatVal.finite 1, FloatVal.finite 2, FloatVal.nan]))
       (cleanData [FloatVal.finite 1, FloatVal.finite 2, FloatVal.nan]) ∧
     (compute_histogram [FloatVal.finite 1, FloatVal.finite 2, FloatVal.nan]
         2).statsOf.median =
       (if (cleanData [FloatVal.finite 1, FloatVal.finite 2, FloatVal.nan]).length % 2 = 1
        then (List.insertionSort (· ≤ ·)
            (cleanData [FloatVal.finite 1, FloatVal.finite 2, FloatVal.nan])).getD
            ((cleanData [FloatVal.finite 1, FloatVal.finite 2, FloatVal.nan]).length / 2) 0
        else ((List.insertionSort (· ≤ ·)
                (cleanData [FloatVal.finite 1, FloatVal.finite 2, FloatVal.nan])).getD
                ((cleanData [FloatVal.finite 1, FloatVal.finite 2, FloatVal.nan]).length / 2
                  - 1) 0 +
              (List.insertionSort (· ≤ ·)
                (cleanData [FloatVal.finite 1, FloatVal.finite 2, FloatVal.nan])).getD
                ((cleanData [FloatVal.finite 1, FloatVal.finite 2, FloatVal.nan]).length / 2)
                0) / 2)) :=
  ⟨by decide, by norm_num,
   stats_formulas [FloatVal.finite 1, FloatVal.finite 2, FloatVal.nan] 2
     (by decide) (by norm_num)⟩

/-- C8: in every document produced by the report writer, the data section
(the lines after the header, metadata and statistics blocks) has exactly
one line per bin, in ascending bin order, and line `i` is
`bin_center, count, left_edge, right_edge` with
`bin_center = (edges[i] + edges[i+1]) / 2`, floats formatted to 6 decimal
places, the count a plain integer, fields comma-space separated. -/
theorem data_section_format (bin_edges : List ℚ) (hist_counts : List ℕ) (stats : WStats)
    (var_name timestamp : String) (var_info : List (String × String)) :
    ((writeHistogramLines bin_edges hist_counts stats var_name timestamp var_info).drop
        (headerLineCount var_info)).length = hist_counts.length ∧
    (writeHistogramLines bin_edges hist_counts stats var_name timestamp var_info).drop
        (headerLineCount var_info) =
      (List.range hist_counts.length).map fun i =>
        formatFixed6 ((bin_edges.getD i 0 + bin_edges.getD (i+1) 0) / 2) ++ ", " ++
          toString (hist_counts.getD i 0) ++ ", " ++
          formatFixed6 (bin_edges.getD i 0) ++ ", " ++
          formatFixed6 (bin_edges.getD (i+1) 0) := by
  have hdrop :
      (writeHistogramLines bin_edges hist_counts stats var_name timestamp var_info).drop
        (headerLineCount var_info) = dataLines bin_edges hist_counts := by
    unfold writeHistogramLines headerLineCount
    by_cases hinfo : var_info.isEmpty
    · rw [if_pos hinfo, if_pos hinfo]
      apply List.drop_left'
      simp
    · rw [if_neg hinfo, if_neg hinfo]
      apply List.drop_left'
      simp
      omega
  rw [hdrop]
  constructor
  · simp [dataLines]
  · rfl

/-- C9 counterexample: the writer is not atomic.  On a one-bin histogram
for variable `x`, an I/O failure after the first of the line writes leaves
the destination holding exactly the first header line: the operation
failed, yet the file is neither empty nor the full document. -/
theorem atomic_write_counterexample :
    (runWrites
      (writeChunks [0, 1] [5] ⟨5, 1/2, 1/2, 0, 1, 1/2⟩ "x" "2026-10-12 00:00:00" []) 1).1
      = false ∧
    (runWrites
      (writeChunks [0, 1] [5] ⟨5, 1/2, 1/2, 0, 1, 1/2⟩ "x" "2026-10-12 00:00:00" []) 1).2
      = ["# Histogram for variable: x\n"] ∧
    (["# Histogram for variable: x\n"] : List String) ≠ [] ∧
    (runWrites
      (writeChunks [0, 1] [5] ⟨5, 1/2, 1/2, 0, 1, 1/2⟩ "x" "2026-10-12 00:00:00" []) 1).2
      ≠ writeChunks [0, 1] [5] ⟨5, 1/2, 1/2, 0, 1, 1/2⟩ "x" "2026-10-12 00:00:00" [] := by
  have hc : writeChunks [0, 1] [5] ⟨5, 1/2, 1/2, 0, 1, 1/2⟩ "x" "2026-10-12 00:00:00" [] =
      ("# Histogram for variable: x\n") ::
        (writeHistogramLines [0, 1] [5] ⟨5, 1/2, 1/2, 0, 1, 1/2⟩ "x" "2026-10-12 00:00:00"
          []).tail.map (fun line => line ++ "\n") := rfl
  refine ⟨?_, ?_, ?_, ?_⟩
  · rw [hc]
    rfl
  · rw [hc]
    rfl
  · intro h
    cases h
  · intro h
    have h1 : (runWrites
        (writeChunks [0, 1] [5] ⟨5, 1/2, 1/2, 0, 1, 1/2⟩ "x" "2026-10-12 00:00:00" [])
        1).2.length = 1 := by
      rw [hc]
      rfl
    have h2 : (writeChunks [0, 1] [5] ⟨5, 1/2, 1/2, 0, 1, 1/2⟩ "x" "2026-10-12 00:00:00"
        []).length = 14 := rfl
    rw [h, h2] at h1
    exact absurd h1 (by norm_num)

/-- C9 (amended): the writer truncates the destination on open and then
writes the document line by line; after `k` successful writes followed by
a failure the destination holds exactly the first `k` lines, and it holds
the full document exactly when every write succeeded.  There is no
atomicity: a mid-sequence failure leaves a partially written file. -/
theorem write_partial_characterization (bin_edges : List ℚ) (hist_counts : List ℕ)
    (stats : WStats) (var_name timestamp : String)
    (var_info : List (String × String)) (k : ℕ) :
    runWrites (writeChunks bin_edges hist_counts stats var_name timestamp var_info) k =
      (decide ((writeChunks bin_edges hist_counts stats var_name timestamp
          var_info).length ≤ k),
       (writeChunks bin_edges hist_counts stats var_name timestamp var_info).take k) :=
  runWrites_eq _ k
